import Mathlib

/-!
Shallow embedding of the NetPBM ASCII decoder (formats P1, P2, P3).

The decoder lives in the class methods of the source: `detect_format`,
`get_tokens_from_ascii`, `process_ascii`, `process_ascii_P1`, the image
constructor, and `render`.  Strings are modelled as `List Char` (all inputs
of interest are ASCII, where code units and characters coincide).  The
dynamic numeric values of the host language are modelled exactly: integers
produced by `parseInt` are `Option ℤ` (`none` standing for NaN, and also for
the `undefined` of an out-of-range array read, which behaves identically in
every operation the decoder performs), and the intermediate arithmetic in
`render` is carried out on `JSNum`, exact fractions extended with the NaN
and infinity values that division can produce.  Byte storage into the pixel
buffer models the clamping conversion of an 8-bit clamped array: NaN and
non-positive values give 0, values at or above 255 give 255, and other
values round to nearest with ties to even.  The constructor of the raster
rejects a zero (or NaN) converted width or height; this is the only failure
the renderer can produce, and the unsupported-magic throw is the only other
failure of the whole decode pipeline.

Boundaries of the numeric model.  The host computes on IEEE doubles and the
model on exact values, so the two agree only where double rounding cannot
change the result; every theorem below that pins an exact byte value is
therefore scoped to such a domain (samples and depths within the format's
16-bit range for the normalization formula, samples 0 and 1 for the bitmap
formula, NaN and infinity paths, and saturation, which is monotone).  The
model likewise identifies the negative zero of the host with zero, and
`jsParseInt` returns the exact integer where the host rounds digit runs
whose value reaches `2 ^ 53` to the nearest double, so exact-value parsing
statements are scoped to short digit runs.
-/

inductive NetPBMFormat
  | P1
  | P2
  | P3
deriving DecidableEq

/-- Errors the decode pipeline can raise: the unsupported-magic throw of
`detect_format`, and the dimension error of the raster constructor when the
converted width or height is zero.  (The source enumeration also declares
binary magics P4 to P6, but `detect_format` never returns them, so they are
omitted from the format type.) -/
inductive JSError
  | unsupportedFormat (magic : List Char)
  | indexSize
deriving DecidableEq

/-- The decoded raster: converted width and height, and the flat RGBA byte
buffer (row-major, 4 bytes per pixel). -/
structure RasterImage where
  width : ℕ
  height : ℕ
  data : List ℕ
deriving DecidableEq

deriving instance DecidableEq for Except

/-- Dynamic numeric values of the renderer: NaN, the two infinities, and
finite values kept as exact fractions `n / d`.  All fractions built by the
operations below keep a positive denominator. -/
inductive JSNum
  | nan
  | inf
  | ninf
  | frac (n : ℤ) (d : ℤ)
deriving DecidableEq

/-- A parsed integer (or NaN / undefined) as a renderer value. -/
def toJSNum : Option ℤ → JSNum
  | none => .nan
  | some n => .frac n 1

/-- Multiplication of dynamic numbers. -/
def jsMul : JSNum → JSNum → JSNum
  | .nan, _ => .nan
  | _, .nan => .nan
  | .frac a b, .frac c d => .frac (a * c) (b * d)
  | .inf, .frac c d => if c = 0 then .nan else if 0 < c * d then .inf else .ninf
  | .frac a b, .inf => if a = 0 then .nan else if 0 < a * b then .inf else .ninf
  | .ninf, .frac c d => if c = 0 then .nan else if 0 < c * d then .ninf else .inf
  | .frac a b, .ninf => if a = 0 then .nan else if 0 < a * b then .ninf else .inf
  | .inf, .inf => .inf
  | .inf, .ninf => .ninf
  | .ninf, .inf => .ninf
  | .ninf, .ninf => .inf

/-- Division of dynamic numbers: a zero divisor yields NaN (for numerator
zero) or a signed infinity, as in the host language. -/
def jsDiv : JSNum → JSNum → JSNum
  | .nan, _ => .nan
  | _, .nan => .nan
  | .frac a b, .frac c d =>
    if c = 0 then
      if a = 0 then .nan else if 0 < a * b then .inf else .ninf
    else if 0 < b * c then .frac (a * d) (b * c) else .frac (-(a * d)) (-(b * c))
  | .frac _ _, .inf => .frac 0 1
  | .frac _ _, .ninf => .frac 0 1
  | .inf, .frac c d => if 0 ≤ c * d then .inf else .ninf
  | .ninf, .frac c d => if 0 ≤ c * d then .ninf else .inf
  | .inf, .inf => .nan
  | .inf, .ninf => .nan
  | .ninf, .inf => .nan
  | .ninf, .ninf => .nan

/-- Subtraction of dynamic numbers. -/
def jsSub : JSNum → JSNum → JSNum
  | .nan, _ => .nan
  | _, .nan => .nan
  | .frac a b, .frac c d => .frac (a * d - c * b) (b * d)
  | .frac _ _, .inf => .ninf
  | .frac _ _, .ninf => .inf
  | .inf, .frac _ _ => .inf
  | .ninf, .frac _ _ => .ninf
  | .inf, .inf => .nan
  | .inf, .ninf => .inf
  | .ninf, .inf => .ninf
  | .ninf, .ninf => .nan

/-- Storage of a dynamic number into an 8-bit clamped byte: NaN and values
at or below 0 give 0, values at or above 255 give 255, and all others round
to nearest with ties to even.  For a fraction `n / d` the denominator is
positive whenever this is reached; the `d ≤ 0` branch is dead. -/
def toUint8Clamp : JSNum → ℕ
  | .nan => 0
  | .ninf => 0
  | .inf => 255
  | .frac n d =>
    if d ≤ 0 then 0
    else if n ≤ 0 then 0
    else if 255 * d ≤ n then 255
    else
      let f := (n / d).toNat
      let r := n % d
      if d < 2 * r then f + 1 else if 2 * r < d then f else if f % 2 = 1 then f + 1 else f

/-- Conversion of a parsed value to the unsigned 32-bit argument of the
raster constructor: NaN (and undefined) convert to 0, other integers are
taken modulo `2 ^ 32`. -/
def jsToUint32 : Option ℤ → ℕ
  | none => 0
  | some n => (n % 4294967296).toNat

/-- Number of iterations of a rendering loop bounded by `v`: the counter
starts at 0 and runs while it is less than `v`, so NaN (and undefined, and
any non-positive bound) give zero iterations. -/
def loopCount : Option ℤ → ℕ
  | none => 0
  | some n => n.toNat

/-- Array indexing of the parsed-number list: an out-of-range read yields
`none` (the undefined value). -/
def jsIndex : List (Option ℤ) → ℕ → Option ℤ
  | [], _ => none
  | x :: _, 0 => x
  | _ :: xs, n + 1 => jsIndex xs n

/-- Split on a separator character, keeping empty pieces, exactly as the
host `split` with a one-character separator does. -/
def splitOnChar (sep : Char) : List Char → List (List Char)
  | [] => [[]]
  | c :: cs =>
    match splitOnChar sep cs with
    | [] => [[c]]
    | t :: ts => if c = sep then [] :: t :: ts else (c :: t) :: ts

/-- Join pieces with a single separator character, as the host `join`. -/
def joinWith (sep : Char) : List (List Char) → List Char
  | [] => []
  | [t] => t
  | t :: ts => t ++ sep :: joinWith sep ts

/-- Comment removal on one line, as the host replace of the sharp-dot-star
regex: the dot of the host regex does not match a carriage return, so the
removed span runs from the first sharp sign up to the end of the line or up
to the first carriage return after that sharp sign, whichever comes first.
Only the first match is replaced, and any later sharp sign survives inside
the kept tail. -/
def stripComment (line : List Char) : List Char :=
  line.takeWhile (fun c => c != '#') ++
    (line.dropWhile (fun c => c != '#')).dropWhile (fun c => c != '\r')

/-- Tokenizer of the decoder: drop the two magic characters, split into
lines, strip the comment of each line, rejoin with a single space, split on
single spaces, and drop empty tokens. -/
def get_tokens_from_ascii (ascii : List Char) : List (List Char) :=
  (splitOnChar ' '
      (joinWith ' ' ((splitOnChar '\n' (ascii.drop 2)).map stripComment))).filter
    (fun t => 0 < t.length)

/-- Whitespace characters recognized by `parseInt` (ASCII range). -/
def isJsSpace (c : Char) : Bool :=
  c == ' ' || c == '\t' || c == '\n' || c == '\r' || c == '\x0b' || c == '\x0c'

/-- Value of one character as a digit, hexadecimal digits included; 16 when
the character is no digit at all (so that it fails every radix test). -/
def hexDigitVal (c : Char) : ℕ :=
  if '0' ≤ c ∧ c ≤ '9' then c.toNat - 48
  else if 'a' ≤ c ∧ c ≤ 'f' then c.toNat - 87
  else if 'A' ≤ c ∧ c ≤ 'F' then c.toNat - 55
  else 16

/-- Digit test for a given radix. -/
def isRadixDigit (radix : ℕ) (c : Char) : Bool :=
  hexDigitVal c < radix

/-- Value of a digit run in a given radix. -/
def digitsVal (radix : ℕ) (ds : List Char) : ℕ :=
  ds.foldl (fun acc c => acc * radix + hexDigitVal c) 0

/-- Host-language `parseInt` with no radix argument: skip leading
whitespace, read an optional sign, detect a hexadecimal prefix, then take
the longest run of digits of the detected radix; no digit at all gives NaN
(`none`). -/
def jsParseInt (s : List Char) : Option ℤ :=
  let s1 := s.dropWhile isJsSpace
  let sign : ℤ := if s1.head? = some '-' then -1 else 1
  let s2 := if s1.head? = some '-' ∨ s1.head? = some '+' then s1.tail else s1
  let useHex := s2.take 2 = ['0', 'x'] ∨ s2.take 2 = ['0', 'X']
  let radix := if useHex then 16 else 10
  let s3 := if useHex then s2.drop 2 else s2
  let ds := s3.takeWhile (isRadixDigit radix)
  if ds.isEmpty then none else some (sign * (digitsVal radix ds : ℤ))

/-- Header and sample parsing for the P2 and P3 formats: every token is fed
through `parseInt`. -/
def process_ascii (ascii : List Char) : List (Option ℤ) :=
  (get_tokens_from_ascii ascii).map jsParseInt

/-- Header and sample parsing for the P1 format: the first two tokens are
the dimensions, the remaining tokens are concatenated and every single
character is fed through `parseInt` on its own. -/
def process_ascii_P1 (ascii : List Char) : List (Option ℤ) :=
  let tokens := get_tokens_from_ascii ascii
  ((tokens.take 2).map jsParseInt) ++
    (tokens.drop 2).flatten.map (fun c => jsParseInt [c])

/-- Magic detection: the first two characters must be P1, P2 or P3;
anything else (the binary magics included) throws the unsupported-format
error. -/
def detect_format (imagedata : List Char) : Except JSError NetPBMFormat :=
  let magic := imagedata.take 2
  if magic = ['P', '1'] then .ok .P1
  else if magic = ['P', '2'] then .ok .P2
  else if magic = ['P', '3'] then .ok .P3
  else .error (.unsupportedFormat magic)

/-- Samples consumed per pixel, by format. -/
def numbersPerPixel : NetPBMFormat → ℕ
  | .P1 => 1
  | .P2 => 1
  | .P3 => 3

/-- Byte value stored by the rendering loop for channel `i` of pixel
`pnum`: the P1 formula is `255 - sample * 255`, the P2 and P3 formula is
`sample / depth * 255`, each evaluated in dynamic arithmetic and stored
through the clamped-byte conversion. -/
def channelByte (format : NetPBMFormat) (depth : Option ℤ)
    (numbers : List (Option ℤ)) (pnum i : ℕ) : ℕ :=
  match format with
  | .P1 =>
    toUint8Clamp (jsSub (.frac 255 1)
      (jsMul (toJSNum (jsIndex numbers (numbersPerPixel .P1 * pnum))) (.frac 255 1)))
  | .P2 =>
    toUint8Clamp (jsMul
      (jsDiv (toJSNum (jsIndex numbers (numbersPerPixel .P2 * pnum + i % numbersPerPixel .P2)))
        (toJSNum depth)) (.frac 255 1))
  | .P3 =>
    toUint8Clamp (jsMul
      (jsDiv (toJSNum (jsIndex numbers (numbersPerPixel .P3 * pnum + i % numbersPerPixel .P3)))
        (toJSNum depth)) (.frac 255 1))

/-- Body of the rendering loops for the pixel numbered `pnum`: the three
color channels are stored, then the alpha byte is set to 255.  Writing past
the end of the buffer is ignored, as on a typed array. -/
def writePixel (format : NetPBMFormat) (depth : Option ℤ)
    (numbers : List (Option ℤ)) (pnum : ℕ) (buf : List ℕ) : List ℕ :=
  ((List.range 3).foldl
      (fun b i => b.set (4 * pnum + i) (channelByte format depth numbers pnum i)) buf).set
    (4 * pnum + 3) 255

/-- The renderer: build the raster of the converted width and height (all
bytes zero), reject a zero converted dimension, then run the row-major
double loop writing every pixel. -/
def render (format : NetPBMFormat) (sizeX sizeY depth : Option ℤ)
    (numbers : List (Option ℤ)) : Except JSError RasterImage :=
  let w32 := jsToUint32 sizeX
  let h32 := jsToUint32 sizeY
  if w32 = 0 ∨ h32 = 0 then .error .indexSize
  else
    let xN := loopCount sizeX
    let yN := loopCount sizeY
    .ok (RasterImage.mk w32 h32
      ((List.range yN).foldl
        (fun buf y =>
          (List.range xN).foldl
            (fun buf2 x => writePixel format depth numbers (y * xN + x) buf2) buf)
        (List.replicate (4 * (w32 * h32)) 0)))

/-- The whole decode pipeline, as run by the image constructor: detect the
format, parse the numbers, and render with the first two (or three) parsed
values as header and the rest as samples.  For P1 the depth argument is the
never-assigned local variable, hence undefined. -/
def decode (ascii : List Char) : Except JSError RasterImage :=
  (detect_format ascii).bind (fun format =>
    match format with
    | .P1 =>
      let numbers := process_ascii_P1 ascii
      render .P1 (jsIndex numbers 0) (jsIndex numbers 1) none (numbers.drop 2)
    | .P2 =>
      let numbers := process_ascii ascii
      render .P2 (jsIndex numbers 0) (jsIndex numbers 1) (jsIndex numbers 2) (numbers.drop 3)
    | .P3 =>
      let numbers := process_ascii ascii
      render .P3 (jsIndex numbers 0) (jsIndex numbers 1) (jsIndex numbers 2) (numbers.drop 3))

/-- The parsed-number list the constructor builds for a detected format:
the single-character parse for P1, the per-token parse for P2 and P3. -/
def parsedNumbers (format : NetPBMFormat) (ascii : List Char) : List (Option ℤ) :=
  match format with
  | .P1 => process_ascii_P1 ascii
  | .P2 => process_ascii ascii
  | .P3 => process_ascii ascii

/-- The four bytes of one rendered pixel. -/
def pixelBytes (format : NetPBMFormat) (depth : Option ℤ)
    (numbers : List (Option ℤ)) (pnum : ℕ) : List ℕ :=
  [channelByte format depth numbers pnum 0, channelByte format depth numbers pnum 1,
    channelByte format depth numbers pnum 2, 255]

/-- The pixel buffer the renderer produces for `count` pixels. -/
def buildData (format : NetPBMFormat) (depth : Option ℤ)
    (numbers : List (Option ℤ)) (count : ℕ) : List ℕ :=
  ((List.range count).map (pixelBytes format depth numbers)).flatten

/-- Split on a predicate, keeping empty pieces; used only to state the
specification side of the tokenizer claim. -/
def splitOnPred (p : Char → Bool) : List Char → List (List Char)
  | [] => [[]]
  | c :: cs =>
    match splitOnPred p cs with
    | [] => [[c]]
    | t :: ts => if p c then [] :: t :: ts else (c :: t) :: ts

/-- Modelled from the spec words for the tokenizer claim: after magic
stripping and line-scoped comment removal (on each line everything from the
first sharp sign to the end of the line is discarded, as the spec words
say), the tokens are the maximal whitespace-delimited non-empty runs of the
remaining text, every whitespace character acting as a separator. -/
def specTokenizeWhitespace (ascii : List Char) : List (List Char) :=
  (splitOnPred isJsSpace
      (joinWith '\n' ((splitOnChar '\n' (ascii.drop 2)).map
        (fun line => line.takeWhile (fun c => c != '#'))))).filter
    (fun t => 0 < t.length)

/-- Rounding of `a / d` to the nearest natural number with ties to even
(`d` positive); used to state the amended normalization claim. -/
def roundHalfEvenDiv (a d : ℕ) : ℕ :=
  let f := a / d
  let r := a % d
  if d < 2 * r then f + 1 else if 2 * r < d then f else if f % 2 = 1 then f + 1 else f

/-- Append a suffix to the last piece of a non-empty list of pieces. -/
def appendToLast (suffix : List Char) : List (List Char) → List (List Char)
  | [] => [suffix]
  | [t] => [t ++ suffix]
  | t :: ts => t :: appendToLast suffix ts

/-- Concrete input: the bitmap scenario of the spec. -/
def exP1 : List Char := String.toList (r"P1
2 2
0 1
1 0
")

/-- Concrete input: the comment scenario of the spec. -/
def exComment : List Char := String.toList (r"P2
#note
2 1
255
10 20
")

/-- Concrete input: the one-sample-short grayscale scenario of the spec. -/
def exShort : List Char := String.toList (r"P2
2 1
255
10
")

/-- Concrete input: one grayscale sample of 1 against a declared maximum of
2, whose exact normalized value is 127.5. -/
def exHalf : List Char := String.toList (r"P2
1 1
2
1
")

/-- Concrete input: a grayscale header declaring a maximum value of 0. -/
def exZeroDepth : List Char := String.toList (r"P2
1 1
0
5
")

/-- Concrete input: an unsupported magic identifier. -/
def exBadMagic : List Char := String.toList (r"P9
1 1
255
0
")

/-- Concrete input: a grayscale image whose width token parses to NaN. -/
def exBadWidth : List Char := String.toList (r"P2
zz 1
255
0
")

/-- Concrete input: two numbers separated only by a tabulator. -/
def exTab : List Char := ['P', '2', ' ', '1', '\t', '2']

/-- Concrete input: a line whose comment contains a carriage return. -/
def exCRComment : List Char := ['P', '2', '\n', 'X', '#', 'a', '\r', 'b', '\n', 'Y']

/-- Concrete input: the same line with no comment at all. -/
def exCRPlain : List Char := ['P', '2', '\n', 'X', '\n', 'Y']

theorem splitOnChar_ne_nil (sep : Char) (l : List Char) : splitOnChar sep l ≠ [] := by
  induction l with
  | nil => simp [splitOnChar]
  | cons c cs ih =>
    cases h : splitOnChar sep cs with
    | nil => exact absurd h ih
    | cons t ts =>
      simp only [splitOnChar, h]
      split <;> simp

theorem splitOnChar_cons_eq (sep c : Char) (cs t : List Char) (ts : List (List Char))
    (h : splitOnChar sep cs = t :: ts) :
    splitOnChar sep (c :: cs) = if c = sep then [] :: t :: ts else (c :: t) :: ts := by
  simp [splitOnChar, h]

theorem splitOnChar_append_sep (sep : Char) (X Y : List Char) :
    splitOnChar sep (X ++ sep :: Y) = splitOnChar sep X ++ splitOnChar sep Y := by
  induction X with
  | nil =>
    cases h : splitOnChar sep Y with
    | nil => exact absurd h (splitOnChar_ne_nil sep Y)
    | cons t ts => simp [splitOnChar, h]
  | cons c X ih =>
    cases h : splitOnChar sep X with
    | cons t ts =>
      have hiw : splitOnChar sep (X ++ sep :: Y) = t :: (ts ++ splitOnChar sep Y) := by
        rw [ih, h]; rfl
      rw [List.cons_append, splitOnChar_cons_eq sep c _ _ _ hiw,
        splitOnChar_cons_eq sep c _ _ _ h]
      split <;> simp
    | nil => exact absurd h (splitOnChar_ne_nil sep X)

theorem splitOnChar_no_sep (sep : Char) (Z : List Char) (hZ : sep ∉ Z) :
    splitOnChar sep Z = [Z] := by
  induction Z with
  | nil => rfl
  | cons c Z ih =>
    have hc : ¬(c = sep) := fun h => hZ (h ▸ List.mem_cons_self _ _)
    have h := ih (fun hm => hZ (List.mem_cons_of_mem _ hm))
    rw [splitOnChar_cons_eq sep c _ _ _ h, if_neg hc]

theorem appendToLast_ne_nil (Z : List Char) (L : List (List Char)) :
    appendToLast Z L ≠ [] := by
  cases L with
  | nil => simp [appendToLast]
  | cons t ts => cases ts <;> simp [appendToLast]

theorem splitOnChar_append_no_sep (sep : Char) (X Z : List Char) (hZ : sep ∉ Z) :
    splitOnChar sep (X ++ Z) = appendToLast Z (splitOnChar sep X) := by
  induction X with
  | nil => simp [splitOnChar, splitOnChar_no_sep sep Z hZ, appendToLast]
  | cons c X ih =>
    cases h : splitOnChar sep X with
    | cons t ts =>
      cases ts with
      | nil =>
        have hiw : splitOnChar sep (X ++ Z) = [t ++ Z] := by
          rw [ih, h]; rfl
        rw [List.cons_append, splitOnChar_cons_eq sep c _ _ _ hiw,
          splitOnChar_cons_eq sep c _ _ _ h]
        split <;> simp [appendToLast]
      | cons u us =>
        cases hau : appendToLast Z (u :: us) with
        | nil => exact absurd hau (appendToLast_ne_nil _ _)
        | cons v vs =>
          have hiw : splitOnChar sep (X ++ Z) = t :: v :: vs := by
            rw [ih, h]
            show appendToLast Z (t :: u :: us) = t :: v :: vs
            simp [appendToLast, hau]
          rw [List.cons_append, splitOnChar_cons_eq sep c _ _ _ hiw,
            splitOnChar_cons_eq sep c _ _ _ h]
          split <;> simp [appendToLast, hau]
    | nil => exact absurd h (splitOnChar_ne_nil sep X)

theorem takeWhile_append_hash (X C : List Char) :
    List.takeWhile (fun c => c != '#') (X ++ '#' :: C) =
      List.takeWhile (fun c => c != '#') X := by
  induction X with
  | nil => simp
  | cons x X ih =>
    by_cases hx : x = '#'
    · subst hx; simp
    · simp only [List.cons_append, List.takeWhile_cons] at ih ⊢
      simp [hx, ih]

theorem dropWhile_append_hash (X C : List Char) :
    List.dropWhile (fun c => c != '#') (X ++ '#' :: C) =
      List.dropWhile (fun c => c != '#') X ++ '#' :: C := by
  induction X with
  | nil => simp
  | cons x X ih =>
    rw [List.cons_append, List.dropWhile_cons, List.dropWhile_cons]
    by_cases hx : x = '#'
    · subst hx; simp
    · simp [hx, ih]

theorem dropWhile_eq_nil_of_all {p : Char → Bool} (L : List Char)
    (h : ∀ c ∈ L, p c = true) : List.dropWhile p L = [] := by
  induction L with
  | nil => rfl
  | cons x X ih =>
    rw [List.dropWhile_cons, if_pos (h x (List.mem_cons_self x X))]
    exact ih (fun c hc => h c (List.mem_cons_of_mem x hc))

theorem mem_of_mem_dropWhile {p : Char → Bool} (L : List Char) (c : Char)
    (h : c ∈ List.dropWhile p L) : c ∈ L := by
  induction L with
  | nil => simp at h
  | cons x X ih =>
    rw [List.dropWhile_cons] at h
    by_cases hx : p x = true
    · rw [if_pos hx] at h
      exact List.mem_cons_of_mem x (ih h)
    · rw [if_neg hx] at h
      exact h

theorem mem_of_mem_takeWhile {p : Char → Bool} (L : List Char) (c : Char)
    (h : c ∈ List.takeWhile p L) : c ∈ L := by
  induction L with
  | nil => simp at h
  | cons x X ih =>
    rw [List.takeWhile_cons] at h
    by_cases hx : p x = true
    · rw [if_pos hx] at h
      rcases List.mem_cons.1 h with h | h
      · exact h ▸ List.mem_cons_self x X
      · exact List.mem_cons_of_mem x (ih h)
    · rw [if_neg hx] at h
      simp at h

theorem stripComment_append_hash (X C : List Char) (hX : '\r' ∉ X) (hC : '\r' ∉ C) :
    stripComment (X ++ '#' :: C) = stripComment X := by
  have hall1 : ∀ c ∈ List.dropWhile (fun c => c != '#') X ++ '#' :: C,
      (c != '\r') = true := by
    intro c hc
    have hne : c ≠ '\r' := by
      rcases List.mem_append.1 hc with hc | hc
      · exact fun h => hX (h ▸ mem_of_mem_dropWhile _ c hc)
      · rcases List.mem_cons.1 hc with rfl | hc
        · decide
        · exact fun h => hC (h ▸ hc)
    simpa using hne
  have hall2 : ∀ c ∈ List.dropWhile (fun c => c != '#') X, (c != '\r') = true := by
    intro c hc
    simpa using (show c ≠ '\r' from fun h => hX (h ▸ mem_of_mem_dropWhile _ c hc))
  unfold stripComment
  rw [takeWhile_append_hash, dropWhile_append_hash, dropWhile_eq_nil_of_all _ hall1,
    dropWhile_eq_nil_of_all _ hall2]

theorem map_strip_appendToLast (C : List Char) (L : List (List Char)) (hL : L ≠ [])
    (hLr : ∀ t ∈ L, '\r' ∉ t) (hC : '\r' ∉ C) :
    (appendToLast ('#' :: C) L).map stripComment = L.map stripComment := by
  induction L with
  | nil => exact absurd rfl hL
  | cons t ts ih =>
    cases ts with
    | nil =>
      simp [appendToLast,
        stripComment_append_hash t C (hLr t (List.mem_cons_self _ _)) hC]
    | cons u us =>
      simp [appendToLast,
        ih (by simp) (fun x hx => hLr x (List.mem_cons_of_mem t hx))]

theorem not_sep_of_mem_splitOnChar (sep : Char) (l t : List Char)
    (h : t ∈ splitOnChar sep l) : sep ∉ t := by
  induction l generalizing t with
  | nil =>
    simp only [splitOnChar, List.mem_singleton] at h
    subst h; simp
  | cons c cs ih =>
    cases hs : splitOnChar sep cs with
    | nil => exact absurd hs (splitOnChar_ne_nil sep cs)
    | cons u us =>
      rw [splitOnChar_cons_eq sep c _ _ _ hs] at h
      by_cases hc : c = sep
      · rw [if_pos hc] at h
        rcases List.mem_cons.1 h with h | h
        · subst h; simp
        · exact ih t (hs ▸ h)
      · rw [if_neg hc] at h
        rcases List.mem_cons.1 h with h | h
        · subst h
          intro hmem
          rcases List.mem_cons.1 hmem with h | h
          · exact hc h.symm
          · exact ih u (hs ▸ List.mem_cons_self u us) h
        · exact ih t (hs ▸ List.mem_cons_of_mem u h)

theorem mem_of_mem_splitOnChar (sep : Char) (l t : List Char) (c : Char)
    (ht : t ∈ splitOnChar sep l) (hc : c ∈ t) : c ∈ l := by
  induction l generalizing t with
  | nil =>
    simp only [splitOnChar, List.mem_singleton] at ht
    subst ht; simp at hc
  | cons a cs ih =>
    cases hs : splitOnChar sep cs with
    | nil => exact absurd hs (splitOnChar_ne_nil sep cs)
    | cons u us =>
      rw [splitOnChar_cons_eq sep a _ _ _ hs] at ht
      by_cases ha : a = sep
      · rw [if_pos ha] at ht
        rcases List.mem_cons.1 ht with h | h
        · subst h; simp at hc
        · exact List.mem_cons_of_mem a (ih t (hs ▸ h) hc)
      · rw [if_neg ha] at ht
        rcases List.mem_cons.1 ht with h | h
        · subst h
          rcases List.mem_cons.1 hc with h | h
          · exact h ▸ List.mem_cons_self a cs
          · exact List.mem_cons_of_mem a (ih u (hs ▸ List.mem_cons_self u us) h)
        · exact List.mem_cons_of_mem a (ih t (hs ▸ List.mem_cons_of_mem u h) hc)

theorem mem_joinWith (sep : Char) (L : List (List Char)) (c : Char)
    (h : c ∈ joinWith sep L) : c = sep ∨ ∃ t ∈ L, c ∈ t := by
  induction L with
  | nil => simp [joinWith] at h
  | cons t ts ih =>
    cases ts with
    | nil =>
      right
      exact ⟨t, List.mem_singleton_self t, h⟩
    | cons u us =>
      rw [show joinWith sep (t :: u :: us) = t ++ sep :: joinWith sep (u :: us) from rfl] at h
      rcases List.mem_append.1 h with h | h
      · right; exact ⟨t, List.mem_cons_self _ _, h⟩
      · rcases List.mem_cons.1 h with h | h
        · left; exact h
        · rcases ih h with h | ⟨v, hv, hcv⟩
          · left; exact h
          · right; exact ⟨v, List.mem_cons_of_mem t hv, hcv⟩

theorem mem_of_mem_stripComment (line : List Char) (c : Char)
    (h : c ∈ stripComment line) : c ∈ line := by
  unfold stripComment at h
  rcases List.mem_append.1 h with h | h
  · exact mem_of_mem_takeWhile _ c h
  · exact mem_of_mem_dropWhile _ c (mem_of_mem_dropWhile _ c h)

theorem jsIndex_eq_none (ns : List (Option ℤ)) (i : ℕ) (h : ns.length ≤ i) :
    jsIndex ns i = none := by
  induction ns generalizing i with
  | nil => rfl
  | cons x xs ih =>
    cases i with
    | zero => simp at h
    | succ i => exact ih i (by simpa using h)

theorem toUint8Clamp_le (v : JSNum) : toUint8Clamp v ≤ 255 := by
  cases v with
  | nan => simp [toUint8Clamp]
  | inf => simp [toUint8Clamp]
  | ninf => simp [toUint8Clamp]
  | frac n d =>
    simp only [toUint8Clamp]
    split_ifs with h1 h2 h3 h4 h5 h6 <;> try omega
    all_goals
      have hd : 0 < d := by omega
      have hlt : n / d < 255 := Int.ediv_lt_of_lt_mul hd (by linarith)
      have hge : 0 ≤ n / d := Int.ediv_nonneg (by omega) (by omega)
      omega

theorem channelByte_le (format : NetPBMFormat) (depth : Option ℤ)
    (numbers : List (Option ℤ)) (pnum i : ℕ) :
    channelByte format depth numbers pnum i ≤ 255 := by
  cases format <;> exact toUint8Clamp_le _

theorem writePixel_eq (format : NetPBMFormat) (depth : Option ℤ)
    (numbers : List (Option ℤ)) (pnum : ℕ) (buf : List ℕ) :
    writePixel format depth numbers pnum buf =
      ((((buf.set (4*pnum) (channelByte format depth numbers pnum 0)).set
          (4*pnum+1) (channelByte format depth numbers pnum 1)).set
          (4*pnum+2) (channelByte format depth numbers pnum 2)).set
          (4*pnum+3) 255) := rfl

theorem set_pixel_chunk (A rest : List ℕ) (c0 c1 c2 c3 : ℕ) :
    ((((A ++ (0::0::0::0::rest)).set A.length c0).set (A.length+1) c1).set
      (A.length+2) c2).set (A.length+3) c3 = A ++ (c0::c1::c2::c3::rest) := by
  induction A with
  | nil => rfl
  | cons a A ih =>
    simp only [List.cons_append, List.length_cons, List.set]
    rw [show A.length+1+1 = A.length+2 from rfl, show A.length+1+2 = A.length+3 from rfl]
    exact congrArg (a :: ·) ih

theorem buildData_zero (format : NetPBMFormat) (depth : Option ℤ)
    (numbers : List (Option ℤ)) : buildData format depth numbers 0 = [] := rfl

theorem buildData_succ (format : NetPBMFormat) (depth : Option ℤ)
    (numbers : List (Option ℤ)) (n : ℕ) :
    buildData format depth numbers (n+1) =
      buildData format depth numbers n ++ pixelBytes format depth numbers n := by
  unfold buildData
  rw [List.range_succ, List.map_append, List.flatten_append, List.map_cons,
    List.map_nil, List.flatten_cons, List.flatten_nil, List.append_nil]

theorem buildData_length (format : NetPBMFormat) (depth : Option ℤ)
    (numbers : List (Option ℤ)) (n : ℕ) :
    (buildData format depth numbers n).length = 4 * n := by
  induction n with
  | zero => rfl
  | succ n ih =>
    rw [buildData_succ, List.length_append, ih]
    simp [pixelBytes]
    omega

theorem foldl_writePixel_eq_buildData (format : NetPBMFormat) (depth : Option ℤ)
    (numbers : List (Option ℤ)) (N : ℕ) :
    ∀ P, P ≤ N →
      (List.range P).foldl (fun b p => writePixel format depth numbers p b)
          (List.replicate (4*N) 0)
        = buildData format depth numbers P ++ List.replicate (4*(N-P)) 0 := by
  intro P
  induction P with
  | zero => intro _; simp [buildData]
  | succ P ih =>
    intro h
    rw [List.range_succ, List.foldl_append, ih (Nat.le_of_succ_le h)]
    simp only [List.foldl_cons, List.foldl_nil]
    rw [writePixel_eq]
    have hrep : List.replicate (4*(N-P)) (0:ℕ) =
        0::0::0::0::List.replicate (4*(N-(P+1))) 0 := by
      rw [show 4*(N-P) = 4 + 4*(N-(P+1)) by omega, List.replicate_add]
      rfl
    have hlen : 4*P = (buildData format depth numbers P).length :=
      (buildData_length format depth numbers P).symm
    rw [hrep, hlen, set_pixel_chunk, buildData_succ]
    rw [show 255 = (pixelBytes format depth numbers P).getD 3 0 from rfl]
    simp [pixelBytes, List.append_assoc]

theorem foldl_double_range {α : Type} (f : ℕ → α → α) (w : ℕ) :
    ∀ (h : ℕ) (init : α),
      (List.range h).foldl
          (fun b y => (List.range w).foldl (fun b2 x => f (y*w+x) b2) b) init
        = (List.range (h*w)).foldl (fun b p => f p b) init := by
  intro h
  induction h with
  | zero => intro init; simp
  | succ h ih =>
    intro init
    rw [List.range_succ, List.foldl_append, ih, Nat.succ_mul, List.range_add,
      List.foldl_append, List.foldl_map]
    simp only [List.foldl_cons, List.foldl_nil]

theorem render_ok (format : NetPBMFormat) (m k : ℤ) (depth : Option ℤ)
    (numbers : List (Option ℤ)) (hm0 : 0 < m) (hm : m < 4294967296)
    (hk0 : 0 < k) (hk : k < 4294967296) :
    render format (some m) (some k) depth numbers =
      .ok (RasterImage.mk m.toNat k.toNat
        (buildData format depth numbers (k.toNat * m.toNat))) := by
  have hw : jsToUint32 (some m) = m.toNat := by
    show (m % 4294967296).toNat = m.toNat
    rw [Int.emod_eq_of_lt hm0.le hm]
  have hh : jsToUint32 (some k) = k.toNat := by
    show (k % 4294967296).toNat = k.toNat
    rw [Int.emod_eq_of_lt hk0.le hk]
  have hw0 : ¬(m.toNat = 0 ∨ k.toNat = 0) := by omega
  simp only [render, hw, hh, loopCount]
  rw [if_neg hw0, foldl_double_range, Nat.mul_comm m.toNat k.toNat,
    foldl_writePixel_eq_buildData format depth numbers (k.toNat * m.toNat)
      (k.toNat * m.toNat) (le_refl _),
    Nat.sub_self]
  simp

theorem buildData_getD (format : NetPBMFormat) (depth : Option ℤ)
    (numbers : List (Option ℤ)) (n p i : ℕ) (hp : p < n) (hi : i < 4) :
    (buildData format depth numbers n).getD (4*p+i) 0 =
      if i = 3 then 255 else channelByte format depth numbers p i := by
  induction n with
  | zero => omega
  | succ n ih =>
    rw [buildData_succ]
    rcases Nat.lt_succ_iff_lt_or_eq.1 hp with h | h
    · rw [List.getD_append _ _ _ _ (by rw [buildData_length]; omega)]
      exact ih h
    · subst h
      rw [List.getD_append_right _ _ _ _ (by rw [buildData_length]; omega),
        buildData_length]
      rw [show 4*p+i - 4*p = i by omega]
      interval_cases i <;> simp [pixelBytes]

theorem foldl_preserves {α β : Type} (P : β → Prop) (g : β → α → β) (l : List α)
    (hg : ∀ b a, P b → P (g b a)) : ∀ b, P b → P (l.foldl g b) := by
  induction l with
  | nil => intro b hb; exact hb
  | cons a l ih => intro b hb; exact ih _ (hg b a hb)

theorem writePixel_bytes_le (format : NetPBMFormat) (depth : Option ℤ)
    (numbers : List (Option ℤ)) (pnum : ℕ) (buf : List ℕ)
    (hb : ∀ b ∈ buf, b ≤ 255) : ∀ b ∈ writePixel format depth numbers pnum buf, b ≤ 255 := by
  intro b hmem
  rw [writePixel_eq] at hmem
  rcases List.mem_or_eq_of_mem_set hmem with h | h
  · rcases List.mem_or_eq_of_mem_set h with h | h
    · rcases List.mem_or_eq_of_mem_set h with h | h
      · rcases List.mem_or_eq_of_mem_set h with h | h
        · exact hb b h
        · exact h ▸ channelByte_le format depth numbers pnum 0
      · exact h ▸ channelByte_le format depth numbers pnum 1
    · exact h ▸ channelByte_le format depth numbers pnum 2
  · exact le_of_eq h

theorem render_bytes_le (format : NetPBMFormat) (sizeX sizeY depth : Option ℤ)
    (numbers : List (Option ℤ)) (img : RasterImage)
    (h : render format sizeX sizeY depth numbers = .ok img) :
    ∀ b ∈ img.data, b ≤ 255 := by
  simp only [render] at h
  split at h
  · exact absurd h (by simp)
  · rw [← Except.ok.inj h]
    refine foldl_preserves (fun buf => ∀ b ∈ buf, b ≤ 255) _ _ ?_ _ ?_
    · intro buf y hbuf
      refine foldl_preserves (fun buf => ∀ b ∈ buf, b ≤ 255) _ _ ?_ _ hbuf
      intro buf2 x hbuf2
      exact writePixel_bytes_le format depth numbers _ buf2 hbuf2
    · intro b hbmem
      rw [List.eq_of_mem_replicate hbmem]
      omega

theorem channelByte_oob (format : NetPBMFormat) (depth : Option ℤ)
    (numbers : List (Option ℤ)) (pnum i : ℕ)
    (h : numbers.length ≤ numbersPerPixel format * pnum) :
    channelByte format depth numbers pnum i = 0 := by
  cases format with
  | P1 =>
    rw [channelByte, jsIndex_eq_none _ _ h]
    cases depth <;> rfl
  | P2 =>
    rw [channelByte,
      jsIndex_eq_none _ _ (le_trans h (Nat.le_add_right _ _))]
    cases depth <;> rfl
  | P3 =>
    rw [channelByte,
      jsIndex_eq_none _ _ (le_trans h (Nat.le_add_right _ _))]
    cases depth <;> rfl

theorem channelByte_P1_eq (s : ℤ) (depth : Option ℤ) (numbers : List (Option ℤ))
    (pnum i : ℕ) (hs : jsIndex numbers pnum = some s) :
    channelByte .P1 depth numbers pnum i = toUint8Clamp (.frac (255 - s * 255) 1) := by
  rw [channelByte, show numbersPerPixel .P1 * pnum = pnum by simp [numbersPerPixel], hs]
  show toUint8Clamp (.frac (255 * (1 * 1) - s * 255 * 1) (1 * (1 * 1))) = _
  norm_num

theorem channelByte_P2_eq (dd s : ℤ) (numbers : List (Option ℤ)) (pnum i : ℕ)
    (hs : jsIndex numbers pnum = some s) (hd : 0 < dd) :
    channelByte .P2 (some dd) numbers pnum i = toUint8Clamp (.frac (s * 255) dd) := by
  rw [channelByte,
    show numbersPerPixel .P2 * pnum + i % numbersPerPixel .P2 = pnum by
      simp [numbersPerPixel, Nat.mod_one], hs]
  show toUint8Clamp (jsMul (jsDiv (.frac s 1) (.frac dd 1)) (.frac 255 1)) = _
  rw [jsDiv, if_neg hd.ne', if_pos (by omega)]
  show toUint8Clamp (.frac (s * 1 * 255) (1 * dd * 1)) = _
  norm_num

theorem channelByte_P3_eq (dd s : ℤ) (numbers : List (Option ℤ)) (pnum i : ℕ)
    (hs : jsIndex numbers (3 * pnum + i % 3) = some s) (hd : 0 < dd) :
    channelByte .P3 (some dd) numbers pnum i = toUint8Clamp (.frac (s * 255) dd) := by
  rw [channelByte, show numbersPerPixel .P3 = 3 from rfl, hs]
  show toUint8Clamp (jsMul (jsDiv (.frac s 1) (.frac dd 1)) (.frac 255 1)) = _
  rw [jsDiv, if_neg hd.ne', if_pos (by omega)]
  show toUint8Clamp (.frac (s * 1 * 255) (1 * dd * 1)) = _
  norm_num

theorem clamp_saturates (s d : ℤ) (hd : 0 < d) (hs : d ≤ s) :
    toUint8Clamp (.frac (s * 255) d) = 255 := by
  simp only [toUint8Clamp]
  rw [if_neg (by omega), if_neg (by nlinarith), if_pos (by nlinarith)]

theorem clamp_frac_natCast (a d : ℕ) (hd : 1 ≤ d) (ha : a ≤ 255 * d) :
    toUint8Clamp (.frac (a : ℤ) (d : ℤ)) = roundHalfEvenDiv a d := by
  simp only [toUint8Clamp, roundHalfEvenDiv]
  rw [if_neg (by omega)]
  by_cases ha0 : a = 0
  · subst ha0
    rw [if_pos (by omega)]
    simp [Nat.zero_mod, Nat.zero_div]
  · rw [if_neg (by omega)]
    by_cases hamax : a = 255 * d
    · rw [if_pos (by omega)]
      subst hamax
      have h1 : 255 * d % d = 0 := Nat.mul_mod_left 255 d
      have h2 : 255 * d / d = 255 := by
        rw [Nat.mul_div_assoc 255 (dvd_refl d), Nat.div_self (by omega)]
      rw [h1, h2]
      split_ifs <;> omega
    · rw [if_neg (by omega)]
      have hdiv : ((a : ℤ) / (d : ℤ)) = ((a / d : ℕ) : ℤ) := (Int.ofNat_ediv a d).symm
      have hmod : ((a : ℤ) % (d : ℤ)) = ((a % d : ℕ) : ℤ) := (Int.ofNat_emod a d).symm
      rw [hdiv, hmod]
      generalize a / d = q
      generalize a % d = r
      split_ifs <;> omega

theorem isRadixDigit_mono (c : Char) (h : isRadixDigit 10 c = true) :
    isRadixDigit 16 c = true := by
  simp only [isRadixDigit, decide_eq_true_eq] at h ⊢
  omega

theorem hexdigit_not_space (c : Char) (h : isRadixDigit 16 c = true) :
    isJsSpace c = false := by
  by_contra hb
  rw [Bool.not_eq_false] at hb
  simp only [isJsSpace, Bool.or_eq_true, beq_iff_eq] at hb
  rcases hb with ((((h1 | h1) | h1) | h1) | h1) | h1 <;> subst h1 <;>
    exact absurd h (by decide)

theorem takeWhile_append_all {p : Char → Bool} (X Y : List Char)
    (hX : ∀ c ∈ X, p c = true) :
    List.takeWhile p (X ++ Y) = X ++ List.takeWhile p Y := by
  induction X with
  | nil => simp
  | cons x X ih =>
    rw [List.cons_append, List.takeWhile_cons, if_pos (hX x (List.mem_cons_self x X)),
      ih (fun c hc => hX c (List.mem_cons_of_mem x hc)), List.cons_append]

theorem takeWhile_nil_of_head {p : Char → Bool} (Y : List Char)
    (h : ∀ c, Y.head? = some c → p c = false) : List.takeWhile p Y = [] := by
  cases Y with
  | nil => rfl
  | cons y ys => rw [List.takeWhile_cons, if_neg (by simp [h y rfl])]

theorem jsParseInt_cons_nosign (c : Char) (t : List Char)
    (hns : isJsSpace c = false) (hm : c ≠ '-') (hp : c ≠ '+')
    (hx : ¬(c = '0' ∧ t.take 1 = ['x'])) (hX : ¬(c = '0' ∧ t.take 1 = ['X'])) :
    jsParseInt (c :: t) =
      (if ((c :: t).takeWhile (isRadixDigit 10)).isEmpty then none
        else some ((digitsVal 10 ((c :: t).takeWhile (isRadixDigit 10)) : ℤ))) := by
  simp only [jsParseInt]
  rw [List.dropWhile_cons]
  simp [hns, hm, hp, hx, hX]

theorem jsParseInt_hexraw (xc : Char) (hxc : xc = 'x' ∨ xc = 'X') (rest : List Char) :
    jsParseInt ('0' :: xc :: rest) =
      (if (rest.takeWhile (isRadixDigit 16)).isEmpty then none
        else some ((digitsVal 16 (rest.takeWhile (isRadixDigit 16)) : ℤ))) := by
  have h0 : isJsSpace '0' = false := rfl
  rcases hxc with rfl | rfl
  · have ht2 : List.take 2 ('0' :: 'x' :: rest) = ['0', 'x'] := rfl
    simp only [jsParseInt]
    rw [List.dropWhile_cons]
    simp [h0, ht2]
  · have ht2 : List.take 2 ('0' :: 'X' :: rest) = ['0', 'X'] := rfl
    have hXx : ¬(('X' : Char) = 'x') := by decide
    simp only [jsParseInt]
    rw [List.dropWhile_cons]
    simp [h0, ht2, hXx]

theorem jsParseInt_hexcore_any (xc : Char) (hxc : xc = 'x' ∨ xc = 'X')
    (hs rest : List Char) (hne : hs ≠ [])
    (hd : ∀ c ∈ hs, isRadixDigit 16 c = true)
    (hr : ∀ c, rest.head? = some c → isRadixDigit 16 c = false) :
    jsParseInt ('0' :: xc :: (hs ++ rest)) = some (digitsVal 16 hs) := by
  rw [jsParseInt_hexraw xc hxc (hs ++ rest),
    takeWhile_append_all hs rest hd, takeWhile_nil_of_head rest hr, List.append_nil,
    if_neg (by simp [hne])]
  rfl

theorem jsParseInt_hex_fail_iff (xc : Char) (hxc : xc = 'x' ∨ xc = 'X')
    (rest : List Char) :
    jsParseInt ('0' :: xc :: rest) = none ↔
      ∀ c, rest.head? = some c → isRadixDigit 16 c = false := by
  rw [jsParseInt_hexraw xc hxc rest]
  constructor
  · intro h c hc
    by_contra hcd
    have hcd' : isRadixDigit 16 c = true := by
      cases hv : isRadixDigit 16 c with
      | false => exact absurd hv hcd
      | true => rfl
    cases rest with
    | nil => simp at hc
    | cons r rs =>
      simp only [List.head?_cons, Option.some.injEq] at hc
      subst hc
      rw [List.takeWhile_cons, if_pos hcd'] at h
      simp at h
  · intro h
    rw [takeWhile_nil_of_head rest h]
    simp

theorem jsParseInt_dec (ds rest : List Char) (hne : ds ≠ [])
    (hds : ∀ c ∈ ds, isRadixDigit 10 c = true)
    (hrest : ∀ c, rest.head? = some c → isRadixDigit 10 c = false)
    (h0x : ¬(ds = ['0'] ∧ (rest.head? = some 'x' ∨ rest.head? = some 'X'))) :
    jsParseInt (ds ++ rest) = some (digitsVal 10 ds) := by
  obtain ⟨c, ds', rfl⟩ : ∃ c ds', ds = c :: ds' := by
    cases ds with
    | nil => exact absurd rfl hne
    | cons a b => exact ⟨a, b, rfl⟩
  have hc : isRadixDigit 10 c = true := hds c (List.mem_cons_self _ _)
  have hns : isJsSpace c = false := hexdigit_not_space c (isRadixDigit_mono c hc)
  have hm : c ≠ '-' := by rintro rfl; exact absurd hc (by decide)
  have hp : c ≠ '+' := by rintro rfl; exact absurd hc (by decide)
  have hx : ¬(c = '0' ∧ (ds' ++ rest).take 1 = ['x']) := by
    rintro ⟨rfl, h1⟩
    cases ds' with
    | nil =>
      cases rest with
      | nil => simp at h1
      | cons r rs =>
        simp only [List.nil_append, List.take_succ_cons, List.take_zero] at h1
        simp at h1
        subst h1
        exact h0x ⟨rfl, Or.inl rfl⟩
    | cons d' ds'' =>
      simp only [List.cons_append, List.take_succ_cons, List.take_zero] at h1
      have hd' : isRadixDigit 10 d' = true :=
        hds d' (List.mem_cons_of_mem _ (List.mem_cons_self _ _))
      simp at h1
      subst h1
      exact absurd hd' (by decide)
  have hX : ¬(c = '0' ∧ (ds' ++ rest).take 1 = ['X']) := by
    rintro ⟨rfl, h1⟩
    cases ds' with
    | nil =>
      cases rest with
      | nil => simp at h1
      | cons r rs =>
        simp only [List.nil_append, List.take_succ_cons, List.take_zero] at h1
        simp at h1
        subst h1
        exact h0x ⟨rfl, Or.inr rfl⟩
    | cons d' ds'' =>
      simp only [List.cons_append, List.take_succ_cons, List.take_zero] at h1
      have hd' : isRadixDigit 10 d' = true :=
        hds d' (List.mem_cons_of_mem _ (List.mem_cons_self _ _))
      simp at h1
      subst h1
      exact absurd hd' (by decide)
  rw [List.cons_append, jsParseInt_cons_nosign c (ds' ++ rest) hns hm hp hx hX,
    ← List.cons_append,
    takeWhile_append_all (c :: ds') rest hds,
    takeWhile_nil_of_head rest hrest, List.append_nil]
  simp

theorem get_tokens_comment_invariant (A C B : List Char) (hA : 2 ≤ A.length)
    (hC : '\n' ∉ C) (hCr : '\r' ∉ C) (hAr : '\r' ∉ A) :
    get_tokens_from_ascii (A ++ '#' :: C ++ '\n' :: B) =
      get_tokens_from_ascii (A ++ '\n' :: B) := by
  unfold get_tokens_from_ascii
  have hd1 : (A ++ '#' :: C ++ '\n' :: B).drop 2 = (A.drop 2 ++ '#' :: C) ++ '\n' :: B := by
    rw [show A ++ '#' :: C ++ '\n' :: B = (A ++ '#' :: C) ++ '\n' :: B by simp,
      List.drop_append_of_le_length (by simp; omega),
      List.drop_append_of_le_length hA]
  have hd2 : (A ++ '\n' :: B).drop 2 = A.drop 2 ++ '\n' :: B :=
    List.drop_append_of_le_length hA
  have hlines : ∀ t ∈ splitOnChar '\n' (A.drop 2), '\r' ∉ t := by
    intro t ht hmem
    exact hAr (List.drop_subset 2 A (mem_of_mem_splitOnChar '\n' _ t '\r' ht hmem))
  rw [hd1, hd2, splitOnChar_append_sep, splitOnChar_append_sep,
    splitOnChar_append_no_sep '\n' (A.drop 2) ('#' :: C) (by simp [hC]),
    List.map_append, List.map_append,
    map_strip_appendToLast C _ (splitOnChar_ne_nil _ _) hlines hCr]

/-- Claim C1 (amended): when the sample supply is exhausted before pixel
`p`, the decoder does not fail; it renders pixel `p` with all three color
bytes 0 (the undefined read gives NaN, which clamps to 0) and alpha 255. -/
theorem missing_samples_render_black :
    ∀ (format : NetPBMFormat) (m k : ℤ) (depth : Option ℤ)
      (numbers : List (Option ℤ)) (img : RasterImage) (p i : ℕ),
      0 < m → m < 4294967296 → 0 < k → k < 4294967296 →
      render format (some m) (some k) depth numbers = .ok img →
      p < img.width * img.height →
      numbers.length ≤ numbersPerPixel format * p →
      i < 3 →
      img.data.getD (4*p+i) 0 = 0 ∧ img.data.getD (4*p+3) 0 = 255 := by
  intro f m k depth ns img p i hm0 hm hk0 hk hr hp hlen hi
  rw [render_ok f m k depth ns hm0 hm hk0 hk] at hr
  obtain rfl := Except.ok.inj hr
  have hp' : p < k.toNat * m.toNat := by rw [Nat.mul_comm]; exact hp
  constructor
  · rw [buildData_getD f depth ns _ p i hp' (by omega), if_neg (by omega)]
    exact channelByte_oob f depth ns p i hlen
  · rw [buildData_getD f depth ns _ p 3 hp' (by omega), if_pos rfl]

/-- Counterexample to claim C1 as stated: the one-sample-short grayscale
input decodes to a full-size image (missing pixel rendered black), not to
an insufficient-data error. -/
theorem insufficient_data_returns_image :
    decode exShort = .ok (RasterImage.mk 2 1 [10, 10, 10, 255, 0, 0, 0, 255]) := by
  decide

/-- Witness for the amended C1 theorem at the short input's second pixel. -/
theorem missing_samples_render_black_witness :
    (RasterImage.mk 2 1 [10, 10, 10, 255, 0, 0, 0, 255]).data.getD (4*1+0) 0 = 0 ∧
    (RasterImage.mk 2 1 [10, 10, 10, 255, 0, 0, 0, 255]).data.getD (4*1+3) 0 = 255 :=
  missing_samples_render_black .P2 2 1 (some 255) [some 10]
    (RasterImage.mk 2 1 [10, 10, 10, 255, 0, 0, 0, 255]) 1 0
    (by decide) (by decide) (by decide) (by decide) (by decide) (by decide)
    (by decide) (by decide)

/-- Claim C2 (amended): for Grayscale and Pixmap, with the declared
maximum within the format's 16-bit range (1 to 65535) and the sample at
most the maximum, the stored channel byte is `sample * 255 / maxValue`
rounded to the nearest integer with ties to even, not its truncated
quotient; for Grayscale the same value goes to R, G and B since the
formula does not depend on the channel index.  (The range bound on the
maximum keeps the exact-value model faithful to the host's double
arithmetic.) -/
theorem normalization_rounds_half_to_even :
    (∀ (m k : ℤ) (d s : ℕ) (numbers : List (Option ℤ)) (img : RasterImage) (p i : ℕ),
      0 < m → m < 4294967296 → 0 < k → k < 4294967296 →
      1 ≤ d → d ≤ 65535 → s ≤ d →
      jsIndex numbers p = some (s : ℤ) →
      render .P2 (some m) (some k) (some (d : ℤ)) numbers = .ok img →
      p < img.width * img.height → i < 3 →
      img.data.getD (4*p+i) 0 = roundHalfEvenDiv (s * 255) d) ∧
    (∀ (m k : ℤ) (d s : ℕ) (numbers : List (Option ℤ)) (img : RasterImage) (p i : ℕ),
      0 < m → m < 4294967296 → 0 < k → k < 4294967296 →
      1 ≤ d → d ≤ 65535 → s ≤ d →
      jsIndex numbers (3*p+i) = some (s : ℤ) →
      render .P3 (some m) (some k) (some (d : ℤ)) numbers = .ok img →
      p < img.width * img.height → i < 3 →
      img.data.getD (4*p+i) 0 = roundHalfEvenDiv (s * 255) d) := by
  constructor
  · intro m k d s ns img p i hm0 hm hk0 hk hd hd16 hs hidx hr hp hi
    rw [render_ok _ m k _ ns hm0 hm hk0 hk] at hr
    obtain rfl := Except.ok.inj hr
    have hp' : p < k.toNat * m.toNat := by rw [Nat.mul_comm]; exact hp
    rw [buildData_getD _ _ _ _ p i hp' (by omega), if_neg (by omega),
      channelByte_P2_eq (d : ℤ) (s : ℤ) ns p i hidx (by omega),
      show ((s : ℤ) * 255) = ((s * 255 : ℕ) : ℤ) by push_cast; ring]
    exact clamp_frac_natCast (s * 255) d hd (by nlinarith)
  · intro m k d s ns img p i hm0 hm hk0 hk hd hd16 hs hidx hr hp hi
    rw [render_ok _ m k _ ns hm0 hm hk0 hk] at hr
    obtain rfl := Except.ok.inj hr
    have hp' : p < k.toNat * m.toNat := by rw [Nat.mul_comm]; exact hp
    have hidx' : jsIndex ns (3*p + i % 3) = some (s : ℤ) := by
      rw [Nat.mod_eq_of_lt hi]; exact hidx
    rw [buildData_getD _ _ _ _ p i hp' (by omega), if_neg (by omega),
      channelByte_P3_eq (d : ℤ) (s : ℤ) ns p i hidx' (by omega),
      show ((s : ℤ) * 255) = ((s * 255 : ℕ) : ℤ) by push_cast; ring]
    exact clamp_frac_natCast (s * 255) d hd (by nlinarith)

/-- Counterexample to claim C2 as stated: sample 1 with maxValue 2 is
stored as byte 128 (127.5 rounded to even), while the claimed floor of
1/2*255 is 127. -/
theorem grayscale_truncation_counterexample :
    decode exHalf = .ok (RasterImage.mk 1 1 [128, 128, 128, 255]) ∧
    (1 * 255) / 2 = 127 ∧ (128 : ℕ) ≠ 127 := by decide

/-- Witness for the amended C2 theorem: a Grayscale sample 3 of maxValue 4
stores round-half-even of 191.25, which is 191, and a Pixmap sample 1 of
maxValue 2 stores round-half-even of 127.5, which is 128. -/
theorem normalization_rounds_half_to_even_witness :
    (RasterImage.mk 1 1 [191, 191, 191, 255]).data.getD (4*0+0) 0 =
      roundHalfEvenDiv (3 * 255) 4 ∧
    (RasterImage.mk 1 1 [128, 128, 128, 255]).data.getD (4*0+1) 0 =
      roundHalfEvenDiv (1 * 255) 2 :=
  ⟨normalization_rounds_half_to_even.1 1 1 4 3 [some 3]
    (RasterImage.mk 1 1 [191, 191, 191, 255]) 0 0
    (by decide) (by decide) (by decide) (by decide) (by decide) (by decide)
    (by decide) (by decide) (by decide) (by decide) (by decide),
  normalization_rounds_half_to_even.2 1 1 2 1 [some 1, some 1, some 1]
    (RasterImage.mk 1 1 [128, 128, 128, 255]) 0 1
    (by decide) (by decide) (by decide) (by decide) (by decide) (by decide)
    (by decide) (by decide) (by decide) (by decide) (by decide)⟩

/-- Claim C3 (amended): the decoder performs no header validation of its
own; for every format, a width or height token that parses to NaN reaches
the raster constructor, whose converted dimension is 0, and the failure is
the generic dimension error, not a header-specific one. -/
theorem unparsable_dimension_generic_error :
    ∀ (s : List Char) (format : NetPBMFormat),
      detect_format s = .ok format →
      (jsIndex (parsedNumbers format s) 0 = none ∨
        jsIndex (parsedNumbers format s) 1 = none) →
      decode s = .error .indexSize := by
  intro s fmt hdet hidx
  cases fmt <;>
    simp only [parsedNumbers] at hidx <;>
    simp only [decode, hdet, Except.bind] <;>
    rcases hidx with h | h <;>
    simp [render, h, jsToUint32]

/-- Counterexample to claim C3 as stated: a declared maxValue of 0 (not a
positive integer) is not rejected; the sample divides by zero, giving
infinity, which clamps to a white pixel. -/
theorem zero_maxvalue_returns_image :
    decode exZeroDepth = .ok (RasterImage.mk 1 1 [255, 255, 255, 255]) := by decide

/-- Witness for the amended C3 theorem at a width token that parses to NaN. -/
theorem unparsable_dimension_generic_error_witness :
    decode exBadWidth = .error .indexSize :=
  unparsable_dimension_generic_error exBadWidth .P2 (by decide) (Or.inl (by decide))

/-- Claim C4 (confirmed): bitmap samples 0 and 1 render as bytes
`255 - sample * 255` in each color channel (0 is white, 1 is black), and
the concrete 2 by 2 bitmap of the spec decodes to the expected RGBA
sequence. -/
theorem bitmap_inverted_bit :
    (∀ (m k : ℤ) (numbers : List (Option ℤ)) (img : RasterImage) (s p i : ℕ),
      0 < m → m < 4294967296 → 0 < k → k < 4294967296 →
      s ≤ 1 → jsIndex numbers p = some (s : ℤ) →
      render .P1 (some m) (some k) none numbers = .ok img →
      p < img.width * img.height → i < 3 →
      img.data.getD (4*p+i) 0 = 255 - s * 255) ∧
    decode exP1 = .ok (RasterImage.mk 2 2
      [255, 255, 255, 255, 0, 0, 0, 255, 0, 0, 0, 255, 255, 255, 255, 255]) := by
  constructor
  · intro m k ns img s p i hm0 hm hk0 hk hs hidx hr hp hi
    rw [render_ok _ m k _ ns hm0 hm hk0 hk] at hr
    obtain rfl := Except.ok.inj hr
    have hp' : p < k.toNat * m.toNat := by rw [Nat.mul_comm]; exact hp
    rw [buildData_getD _ _ _ _ p i hp' (by omega), if_neg (by omega),
      channelByte_P1_eq (s : ℤ) none ns p i hidx]
    interval_cases s
    · norm_num [toUint8Clamp]
    · norm_num [toUint8Clamp]
  · decide

/-- Witness for the C4 theorem at the first pixel of a 2 by 2 bitmap. -/
theorem bitmap_inverted_bit_witness :
    (RasterImage.mk 2 2
      [255, 255, 255, 255, 0, 0, 0, 255, 0, 0, 0, 255, 255, 255, 255, 255]).data.getD
        (4*1+2) 0 = 255 - 1 * 255 :=
  bitmap_inverted_bit.1 2 2 [some 0, some 1, some 1, some 0]
    (RasterImage.mk 2 2
      [255, 255, 255, 255, 0, 0, 0, 255, 0, 0, 0, 255, 255, 255, 255, 255]) 1 1 2
    (by decide) (by decide) (by decide) (by decide) (by decide) (by decide)
    (by decide) (by decide) (by decide)

/-- Claim C5 (confirmed): every byte of any successfully rendered pixel
buffer lies in 0 to 255, and a Grayscale or Pixmap sample strictly above the
declared maximum saturates its channel to byte 255 rather than wrapping. -/
theorem bytes_bounded_and_saturate :
    (∀ (format : NetPBMFormat) (sizeX sizeY depth : Option ℤ)
      (numbers : List (Option ℤ)) (img : RasterImage),
      render format sizeX sizeY depth numbers = .ok img →
      ∀ b ∈ img.data, b ≤ 255) ∧
    (∀ (m k : ℤ) (d s : ℕ) (numbers : List (Option ℤ)) (img : RasterImage) (p i : ℕ),
      0 < m → m < 4294967296 → 0 < k → k < 4294967296 →
      1 ≤ d → d < s → jsIndex numbers p = some (s : ℤ) →
      render .P2 (some m) (some k) (some (d : ℤ)) numbers = .ok img →
      p < img.width * img.height → i < 3 →
      img.data.getD (4*p+i) 0 = 255) ∧
    (∀ (m k : ℤ) (d s : ℕ) (numbers : List (Option ℤ)) (img : RasterImage) (p i : ℕ),
      0 < m → m < 4294967296 → 0 < k → k < 4294967296 →
      1 ≤ d → d < s → jsIndex numbers (3*p+i) = some (s : ℤ) →
      render .P3 (some m) (some k) (some (d : ℤ)) numbers = .ok img →
      p < img.width * img.height → i < 3 →
      img.data.getD (4*p+i) 0 = 255) := by
  refine ⟨?_, ?_, ?_⟩
  · exact fun format sx sy depth ns img h => render_bytes_le format sx sy depth ns img h
  · intro m k d s ns img p i hm0 hm hk0 hk hd hs hidx hr hp hi
    rw [render_ok _ m k _ ns hm0 hm hk0 hk] at hr
    obtain rfl := Except.ok.inj hr
    have hp' : p < k.toNat * m.toNat := by rw [Nat.mul_comm]; exact hp
    rw [buildData_getD _ _ _ _ p i hp' (by omega), if_neg (by omega),
      channelByte_P2_eq (d : ℤ) (s : ℤ) ns p i hidx (by omega)]
    exact clamp_saturates (s : ℤ) (d : ℤ) (by omega) (by omega)
  · intro m k d s ns img p i hm0 hm hk0 hk hd hs hidx hr hp hi
    rw [render_ok _ m k _ ns hm0 hm hk0 hk] at hr
    obtain rfl := Except.ok.inj hr
    have hp' : p < k.toNat * m.toNat := by rw [Nat.mul_comm]; exact hp
    have hidx' : jsIndex ns (3*p + i % 3) = some (s : ℤ) := by
      rw [Nat.mod_eq_of_lt hi]; exact hidx
    rw [buildData_getD _ _ _ _ p i hp' (by omega), if_neg (by omega),
      channelByte_P3_eq (d : ℤ) (s : ℤ) ns p i hidx' (by omega)]
    exact clamp_saturates (s : ℤ) (d : ℤ) (by omega) (by omega)

/-- Witness for the C5 theorem: sample 2 above maxValue 1 saturates, on a
Grayscale pixel and on a Pixmap channel. -/
theorem bytes_bounded_and_saturate_witness :
    (RasterImage.mk 1 1 [255, 255, 255, 255]).data.getD (4*0+0) 0 = 255 ∧
    (RasterImage.mk 1 1 [255, 255, 255, 255]).data.getD (4*0+1) 0 = 255 :=
  ⟨bytes_bounded_and_saturate.2.1 1 1 1 2 [some 2]
    (RasterImage.mk 1 1 [255, 255, 255, 255]) 0 0
    (by decide) (by decide) (by decide) (by decide) (by decide) (by decide)
    (by decide) (by decide) (by decide) (by decide),
  bytes_bounded_and_saturate.2.2 1 1 1 2 [some 2, some 2, some 2]
    (RasterImage.mk 1 1 [255, 255, 255, 255]) 0 1
    (by decide) (by decide) (by decide) (by decide) (by decide) (by decide)
    (by decide) (by decide) (by decide) (by decide)⟩

/-- Claim C6 (amended): only the space and newline characters separate
tokens (newlines through the line split and the single-space rejoin): every
token is non-empty and contains neither, while other whitespace such as the
tabulator stays inside a token, as the concrete tabulator input shows. -/
theorem tokens_split_only_space_newline :
    (∀ (s t : List Char), t ∈ get_tokens_from_ascii s →
      t ≠ [] ∧ ' ' ∉ t ∧ '\n' ∉ t) ∧
    get_tokens_from_ascii exTab = [['1', '\t', '2']] := by
  constructor
  · intro s t ht
    unfold get_tokens_from_ascii at ht
    rw [List.mem_filter] at ht
    obtain ⟨hmem, hlen⟩ := ht
    have hlen' : 0 < t.length := by simpa using hlen
    refine ⟨by rintro rfl; simp at hlen',
      not_sep_of_mem_splitOnChar _ _ _ hmem, ?_⟩
    intro hnl
    have hin := mem_of_mem_splitOnChar _ _ _ _ hmem hnl
    rcases mem_joinWith _ _ _ hin with h | ⟨u, hu, hcu⟩
    · exact absurd h (by decide)
    · rcases List.mem_map.1 hu with ⟨line, hline, rfl⟩
      exact not_sep_of_mem_splitOnChar _ _ _ hline
        (mem_of_mem_stripComment _ _ hcu)
  · decide

/-- Counterexample to claim C6 as stated: a tabulator between two digits
does not separate them; the code's tokenizer disagrees with the
split-on-any-whitespace tokenizer the spec describes. -/
theorem tab_not_token_separator :
    get_tokens_from_ascii exTab ≠ specTokenizeWhitespace exTab ∧
    get_tokens_from_ascii exTab = [['1', '\t', '2']] ∧
    specTokenizeWhitespace exTab = [['1'], ['2']] := by decide

/-- Witness for the amended C6 theorem at the tabulator token. -/
theorem tokens_split_only_space_newline_witness :
    ['1', '\t', '2'] ≠ ([] : List Char) ∧ ' ' ∉ ['1', '\t', '2'] ∧
      '\n' ∉ ['1', '\t', '2'] :=
  tokens_split_only_space_newline.1 exTab ['1', '\t', '2'] (by decide)

/-- Claim C7 (amended): comment discarding runs from the first sharp sign
of a line to the end of that line or to the first carriage return after the
sharp sign, whichever comes first (the host regex dot does not match a
carriage return).  Appending a sharp sign and comment text free of newlines
and carriage returns to a line of a carriage-return-free prefix leaves the
token sequence unchanged, and the spec's concrete comment scenario decodes
as stated. -/
theorem comment_stripping_line_scoped :
    (∀ (A C B : List Char), 2 ≤ A.length → '\n' ∉ C → '\r' ∉ C → '\r' ∉ A →
      get_tokens_from_ascii (A ++ '#' :: C ++ '\n' :: B) =
        get_tokens_from_ascii (A ++ '\n' :: B)) ∧
    decode exComment = .ok (RasterImage.mk 2 1 [10, 10, 10, 255, 20, 20, 20, 255]) := by
  constructor
  · exact fun A C B hA hC hCr hAr => get_tokens_comment_invariant A C B hA hC hCr hAr
  · decide

/-- Counterexample to claim C7 as stated: in the line with comment text
containing a carriage return, the characters after the carriage return are
not discarded and surface inside a token, so the comment content does
affect the parsed token sequence. -/
theorem cr_comment_affects_tokens :
    get_tokens_from_ascii exCRComment = [['X', '\r', 'b'], ['Y']] ∧
    get_tokens_from_ascii exCRPlain = [['X'], ['Y']] ∧
    [['X', '\r', 'b'], ['Y']] ≠ [['X'], ['Y']] := by decide

/-- Witness for the C7 theorem at the spec's comment scenario. -/
theorem comment_stripping_line_scoped_witness :
    get_tokens_from_ascii (String.toList (r"P2
") ++ '#' :: String.toList (r"note") ++ '\n' :: String.toList (r"2 1
255
10 20
")) =
      get_tokens_from_ascii (String.toList (r"P2
") ++ '\n' :: String.toList (r"2 1
255
10 20
")) :=
  comment_stripping_line_scoped.1 _ _ _ (by decide) (by decide) (by decide) (by decide)

/-- Claim C8 (confirmed): in every successfully rendered raster the alpha
byte of every pixel is 255. -/
theorem alpha_channel_always_255 :
    ∀ (format : NetPBMFormat) (m k : ℤ) (depth : Option ℤ)
      (numbers : List (Option ℤ)) (img : RasterImage) (p : ℕ),
      0 < m → m < 4294967296 → 0 < k → k < 4294967296 →
      render format (some m) (some k) depth numbers = .ok img →
      p < img.width * img.height →
      img.data.getD (4*p+3) 0 = 255 := by
  intro f m k depth ns img p hm0 hm hk0 hk hr hp
  rw [render_ok f m k depth ns hm0 hm hk0 hk] at hr
  obtain rfl := Except.ok.inj hr
  have hp' : p < k.toNat * m.toNat := by rw [Nat.mul_comm]; exact hp
  rw [buildData_getD f depth ns _ p 3 hp' (by omega), if_pos rfl]

/-- Witness for the C8 theorem at the spec's one-pixel color scenario. -/
theorem alpha_channel_always_255_witness :
    (RasterImage.mk 1 1 [255, 0, 0, 255]).data.getD (4*0+3) 0 = 255 :=
  alpha_channel_always_255 .P3 1 1 (some 255) [some 255, some 0, some 0]
    (RasterImage.mk 1 1 [255, 0, 0, 255]) 0
    (by decide) (by decide) (by decide) (by decide) (by decide) (by decide)

/-- Claim C9 (confirmed): an input whose first two characters are not P1,
P2 or P3 fails with the unsupported-format error carrying those characters,
and the spec's P9 scenario fails that way. -/
theorem unsupported_magic_rejected :
    (∀ s : List Char, s.take 2 ≠ ['P', '1'] → s.take 2 ≠ ['P', '2'] →
      s.take 2 ≠ ['P', '3'] →
      decode s = .error (.unsupportedFormat (s.take 2))) ∧
    decode exBadMagic = .error (.unsupportedFormat ['P', '9']) := by
  constructor
  · intro s h1 h2 h3
    simp only [decode, detect_format]
    rw [if_neg h1, if_neg h2, if_neg h3]
    rfl
  · decide

/-- Witness for the C9 theorem at a one-character input. -/
theorem unsupported_magic_rejected_witness :
    decode ['X'] = .error (.unsupportedFormat (['X'].take 2)) :=
  unsupported_magic_rejected.1 ['X'] (by decide) (by decide) (by decide)

/-- Claim C10 (amended): a token with a leading run of at most 15 decimal
digits parses to that run's value with the trailing garbage ignored, unless
the token begins with the hexadecimal prefix (0x or 0X): then the
characters after the prefix are parsed as hexadecimal (at most 13 digits
for the exact value), and the hexadecimal parse fails with NaN exactly
when no hexadecimal digit follows the prefix.  The two concrete values of
the claim hold.  (The digit-run bounds keep the parsed values below
`2 ^ 53`, where the host parses exactly.) -/
theorem parseInt_prefix_and_hex :
    (∀ ds rest : List Char, ds ≠ [] → ds.length ≤ 15 →
      (∀ c ∈ ds, isRadixDigit 10 c = true) →
      (∀ c, rest.head? = some c → isRadixDigit 10 c = false) →
      ¬(ds = ['0'] ∧ (rest.head? = some 'x' ∨ rest.head? = some 'X')) →
      jsParseInt (ds ++ rest) = some (digitsVal 10 ds)) ∧
    (∀ xc : Char, xc = 'x' ∨ xc = 'X' →
      ∀ hs rest : List Char, hs ≠ [] → hs.length ≤ 13 →
      (∀ c ∈ hs, isRadixDigit 16 c = true) →
      (∀ c, rest.head? = some c → isRadixDigit 16 c = false) →
      jsParseInt ('0' :: xc :: (hs ++ rest)) = some (digitsVal 16 hs)) ∧
    (∀ xc : Char, xc = 'x' ∨ xc = 'X' → ∀ rest : List Char,
      (jsParseInt ('0' :: xc :: rest) = none ↔
        ∀ c, rest.head? = some c → isRadixDigit 16 c = false)) ∧
    jsParseInt ['2', 'a', 'b', 'c'] = some 2 ∧
    jsParseInt ['0', 'x', '1', '0'] = some 16 :=
  ⟨fun ds rest hne _ hds hrest h0x => jsParseInt_dec ds rest hne hds hrest h0x,
   fun xc hxc hs rest hne _ hd hr => jsParseInt_hexcore_any xc hxc hs rest hne hd hr,
   fun xc hxc rest => jsParseInt_hex_fail_iff xc hxc rest,
   by decide, by decide⟩

/-- Counterexample to claim C10 as stated: the token with leading digit 0
followed by an x and no hexadecimal digit parses to NaN, not to the value
of its numeric prefix. -/
theorem hex_prefix_parse_failure :
    jsParseInt ['0'] = some 0 ∧ jsParseInt ['0', 'x', 'z', 'z'] = none := by decide

/-- Witness for the C10 theorem at a one-digit token. -/
theorem parseInt_prefix_and_hex_witness :
    jsParseInt (['7'] ++ []) = some (digitsVal 10 ['7']) :=
  parseInt_prefix_and_hex.1 ['7'] [] (by decide) (by decide) (by decide)
    (fun c hc => absurd hc (by simp)) (by decide)
